import Mathlib

/-!
A formal model of the tic-tac-toe game kernel implemented in
`src/mainwindow.cpp` (class `GameBoard` together with the static helpers
`evalIsWinner` / `evalIsFull`), and proofs of the behavioural properties
stated in the design document.

The 3×3 char grid `std::vector<std::vector<char>> board` is modelled as a
function `Fin 3 → Fin 3 → Char`; the mutable members `currentPlayer` and
`gameActive` live in a `GameState` record.  C++ member mutation becomes
explicit state passing; the in-place place/retract discipline of
`minimax` is modelled by the board-threading variant `minimaxSt`.
Machine `int` scores are modelled as `Int` (the scores involved stay in
[-1000, 1000], far from any overflow).
-/

set_option maxHeartbeats 4000000

/-- The 3×3 grid of chars; `' '` is the Empty mark. -/
abbrev Board := Fin 3 → Fin 3 → Char

/-- Writing one cell of the grid (`board[r][c] = m` in the C++ source). -/
def place (b : Board) (r c : Fin 3) (m : Char) : Board :=
  fun i j => if i = r ∧ j = c then m else b i j

/-- The mutable members of `GameBoard` that the kernel logic touches:
`board`, `currentPlayer`, `gameActive` (widgets and monitors are UI/metrics
plumbing outside the model). -/
structure GameState where
  board : Board
  currentPlayer : Char
  gameActive : Bool

/-- The all-empty grid produced by `GameBoard::resetBoard`. -/
def emptyBoard : Board := fun _ _ => ' '

/-- The state after `resetBoard`: empty grid, `currentPlayer = 'X'`,
`gameActive = true`. -/
def initialState : GameState :=
  { board := emptyBoard, currentPlayer := 'X', gameActive := true }

/-- `GameBoard::makeMove(row, col, player)`: validates bounds, emptiness of
the target cell and `gameActive`, and on success writes `player` into the
cell.  Returns the C++ `bool` result together with the post-state. -/
def makeMove (s : GameState) (row col : Int) (player : Char) : Bool × GameState :=
  if h : 0 ≤ row ∧ row < 3 ∧ 0 ≤ col ∧ col < 3 then
    if s.board ⟨row.toNat, by omega⟩ ⟨col.toNat, by omega⟩ = ' ' ∧ s.gameActive = true then
      (true, { s with
        board := place s.board ⟨row.toNat, by omega⟩ ⟨col.toNat, by omega⟩ player })
    else
      (false, s)
  else
    (false, s)

/-- `GameBoard::checkWinner(player)`: the loop over `i` checks row `i` and
column `i`; then the two diagonals. -/
def checkWinner (s : GameState) (player : Char) : Bool :=
  ((List.finRange 3).any fun i =>
    (s.board i 0 == player && s.board i 1 == player && s.board i 2 == player) ||
    (s.board 0 i == player && s.board 1 i == player && s.board 2 i == player)) ||
  (s.board 0 0 == player && s.board 1 1 == player && s.board 2 2 == player) ||
  (s.board 0 2 == player && s.board 1 1 == player && s.board 2 0 == player)

/-- The static helper `evalIsWinner(board, player)`: same line enumeration
as `checkWinner`, on an explicit board argument. -/
def evalIsWinner (b : Board) (player : Char) : Bool :=
  ((List.finRange 3).any fun i =>
    (b i 0 == player && b i 1 == player && b i 2 == player) ||
    (b 0 i == player && b 1 i == player && b 2 i == player)) ||
  (b 0 0 == player && b 1 1 == player && b 2 2 == player) ||
  (b 0 2 == player && b 1 1 == player && b 2 0 == player)

/-- The nine cells in the row-major order of the C++ double loops
`for i { for j { ... } }`. -/
def rmCells : List (Fin 3 × Fin 3) :=
  [(0, 0), (0, 1), (0, 2), (1, 0), (1, 1), (1, 2), (2, 0), (2, 1), (2, 2)]

/-- The static helper `evalIsFull(board)`: no cell holds `' '`. -/
def evalIsFull (b : Board) : Bool :=
  rmCells.all fun c => !(b c.1 c.2 == ' ')

/-- `GameBoard::isFull()`: same scan on the member board. -/
def isFull (s : GameState) : Bool :=
  rmCells.all fun c => !(s.board c.1 c.2 == ' ')

/-- `GameBoard::switchPlayer()` (the AI trigger it also fires is an
asynchronous UI event outside the state model). -/
def switchPlayer (s : GameState) : GameState :=
  { s with currentPlayer := if s.currentPlayer = 'X' then 'O' else 'X' }

/-- The empty cells of a board, in row-major scan order. -/
def emptyCellsList (b : Board) : List (Fin 3 × Fin 3) :=
  rmCells.filter fun c => b c.1 c.2 == ' '

/-- Number of empty cells. -/
def countEmpty (b : Board) : Nat :=
  (emptyCellsList b).length

/-- `GameBoard::minimax(currentBoard, player)`: leaf evaluation is `+10`
for an `'O'` line, `-10` for an `'X'` line, `0` for a full board; otherwise
`'O'` maximizes and `'X'` minimizes over all empty cells.  Recursion is on
the number of empty cells, which strictly decreases at every call. -/
def minimax (b : Board) (player : Char) : Int :=
  if evalIsWinner b 'O' then 10
  else if evalIsWinner b 'X' then -10
  else if evalIsFull b then 0
  else if player = 'O' then
    ((emptyCellsList b).attach.map fun c =>
      minimax (place b c.1.1 c.1.2 'O') 'X').foldl max (-1000)
  else
    ((emptyCellsList b).attach.map fun c =>
      minimax (place b c.1.1 c.1.2 'X') 'O').foldl min 1000
termination_by countEmpty b
decreasing_by
  all_goals
  rcases c with ⟨⟨i, j⟩, hc⟩
  have hmem : (i, j) ∈ rmCells ∧ b i j = ' ' := by
    simpa [emptyCellsList, List.mem_filter] using hc
  simp only [countEmpty, emptyCellsList]
  have key : ∀ (l : List (Fin 3 × Fin 3)), l.Nodup → (i, j) ∈ l →
      ∀ (m : Char), (m == ' ') = false →
      (l.filter fun x => place b i j m x.1 x.2 == ' ').length <
      (l.filter fun x => b x.1 x.2 == ' ').length := by
    intro l
    induction l with
    | nil => intro _ h; cases h
    | cons a t ih =>
      intro hnd hm m hms
      have hndt : t.Nodup := (List.nodup_cons.mp hnd).2
      by_cases ha : a = (i, j)
      · subst ha
        have hat : (i, j) ∉ t := (List.nodup_cons.mp hnd).1
        have hfe : (t.filter fun x => place b i j m x.1 x.2 == ' ') =
            (t.filter fun x => b x.1 x.2 == ' ') := by
          apply List.filter_congr
          intro x hx
          have hxne : ¬(x.1 = i ∧ x.2 = j) := by
            intro hcon
            exact hat (by
              have : x = (i, j) := Prod.ext hcon.1 hcon.2
              simpa [this] using hx)
          simp [place, hxne]
        rw [List.filter_cons, List.filter_cons]
        have h1 : (place b i j m i j == ' ') = false := by
          simp [place, hms]
        simp only [h1, hmem.2, hfe]
        simp
      · have hmt : (i, j) ∈ t := by
          rcases List.mem_cons.mp hm with h | h
          · exact absurd h.symm ha
          · exact h
        have hane : ¬(a.1 = i ∧ a.2 = j) := by
          intro hcon
          exact ha (Prod.ext hcon.1 hcon.2)
        have hsame : (place b i j m a.1 a.2 == ' ') = (b a.1 a.2 == ' ') := by
          simp [place, hane]
        rw [List.filter_cons, List.filter_cons, hsame]
        have := ih hndt hmt m hms
        by_cases hb : (b a.1 a.2 == ' ') = true
        · simp only [hb, if_true]
          simpa using this
        · simp only [Bool.not_eq_true] at hb
          simp only [hb, if_false]
          exact this
  exact key rmCells (by decide) hmem.1 _ (by decide)

/-- Fuel-indexed companion of `minimax` with the identical body; fuel `9`
always suffices (theorem `minimaxF_eq_minimax`), which makes the search
executable by plain structural recursion. -/
def minimaxF (fuel : Nat) (b : Board) (player : Char) : Int :=
  if evalIsWinner b 'O' then 10
  else if evalIsWinner b 'X' then -10
  else if evalIsFull b then 0
  else
    match fuel with
    | 0 => 0
    | f + 1 =>
      if player = 'O' then
        ((emptyCellsList b).map fun c =>
          minimaxF f (place b c.1 c.2 'O') 'X').foldl max (-1000)
      else
        ((emptyCellsList b).map fun c =>
          minimaxF f (place b c.1 c.2 'X') 'O').foldl min 1000

/-- `GameBoard::findBestMove()`: copies the member board, scans the nine
cells row-major, scores each empty cell with `'O'` hypothetically placed
there, and keeps the first strict improvement (initial score `-1000`,
initial move `(-1, -1)`). -/
def findBestMove (s : GameState) : Int × Int :=
  let boardCopy := s.board
  (rmCells.foldl (fun acc c =>
    if boardCopy c.1 c.2 == ' ' then
      let score := minimax (place boardCopy c.1 c.2 'O') 'X'
      if score > acc.1 then (score, ((c.1.val : Int), (c.2.val : Int))) else acc
    else acc)
    (-1000, (-1, -1))).2

/-- `findBestMove` with the fuel-indexed search; equal to `findBestMove`
(theorem `findBestMove_eq_F`) and directly computable. -/
def findBestMoveF (s : GameState) : Int × Int :=
  let boardCopy := s.board
  (rmCells.foldl (fun acc c =>
    if boardCopy c.1 c.2 == ' ' then
      let score := minimaxF 9 (place boardCopy c.1 c.2 'O') 'X'
      if score > acc.1 then (score, ((c.1.val : Int), (c.2.val : Int))) else acc
    else acc)
    (-1000, (-1, -1))).2

/-- Board-threading rendition of the in-place mutation discipline of
`GameBoard::minimax`: the C++ code mutates `currentBoard[i][j]` to the
mover's mark, recurses, and writes `' '` back.  Here the board is passed
through the fold explicitly, so "the explored board returns to its exact
pre-exploration state" becomes a provable statement about the second
component.  Fuel-indexed like `minimaxF`. -/
def minimaxSt (fuel : Nat) (bc : Board) (player : Char) : Int × Board :=
  if evalIsWinner bc 'O' then (10, bc)
  else if evalIsWinner bc 'X' then (-10, bc)
  else if evalIsFull bc then (0, bc)
  else
    match fuel with
    | 0 => (0, bc)
    | f + 1 =>
      if player = 'O' then
        rmCells.foldl (fun acc c =>
          if acc.2 c.1 c.2 == ' ' then
            let r := minimaxSt f (place acc.2 c.1 c.2 'O') 'X'
            (max acc.1 r.1, place r.2 c.1 c.2 ' ')
          else acc) (-1000, bc)
      else
        rmCells.foldl (fun acc c =>
          if acc.2 c.1 c.2 == ' ' then
            let r := minimaxSt f (place acc.2 c.1 c.2 'X') 'O'
            (min acc.1 r.1, place r.2 c.1 c.2 ' ')
          else acc) (1000, bc)

/-- Board-threading rendition of `GameBoard::findBestMove`: the local
`boardCopy` is threaded through the scan (place `'O'`, search, retract);
the result records the chosen move and the final state of `boardCopy`. -/
def findBestMoveSt (s : GameState) : (Int × Int) × Board :=
  let init : Int × (Int × Int) × Board := (-1000, (-1, -1), s.board)
  let r := rmCells.foldl (fun acc c =>
    if acc.2.2 c.1 c.2 == ' ' then
      let m := minimaxSt 9 (place acc.2.2 c.1 c.2 'O') 'X'
      let bc := place m.2 c.1 c.2 ' '
      if m.1 > acc.1 then (m.1, ((c.1.val : Int), (c.2.val : Int)), bc)
      else (acc.1, acc.2.1, bc)
    else acc) init
  (r.2.1, r.2.2)

/-- The 8 winning lines of the 3×3 grid as the specification describes
them: the 3 rows, the 3 columns, the 2 diagonals. -/
def winningLines : List (List (Fin 3 × Fin 3)) :=
  [[(0, 0), (0, 1), (0, 2)],
   [(1, 0), (1, 1), (1, 2)],
   [(2, 0), (2, 1), (2, 2)],
   [(0, 0), (1, 0), (2, 0)],
   [(0, 1), (1, 1), (2, 1)],
   [(0, 2), (1, 2), (2, 2)],
   [(0, 0), (1, 1), (2, 2)],
   [(0, 2), (1, 1), (2, 0)]]

/-- Terminal test on a bare board: some player has a line, or no cell is
empty. -/
def terminalB (b : Board) : Bool :=
  evalIsWinner b 'O' || evalIsWinner b 'X' || evalIsFull b

/-- One accepted-or-rejected interaction of the turn controller
(`GameBoard::onCellClicked`, and identically `GameBoard::aiMove`): attempt
`makeMove` for the current player; on success either freeze the game
(win or draw) or flip the player. -/
def stepResult (s : GameState) (row col : Int) : GameState :=
  let r := makeMove s row col s.currentPlayer
  if r.1 then
    if checkWinner r.2 r.2.currentPlayer then { r.2 with gameActive := false }
    else if isFull r.2 then { r.2 with gameActive := false }
    else switchPlayer r.2
  else s

/-- States reachable from a fresh board through the controller's
turn discipline. -/
inductive Reachable : GameState → Prop
  | init : Reachable initialState
  | step (s : GameState) (row col : Int) :
      Reachable s → Reachable (stepResult s row col)

/-- Plays in which `'O'` moves first from the empty board following
`findBestMove`, while `'X'` replies with arbitrary legal moves; the `Bool`
records whether it is `'O'`'s turn.  Moves are only made on non-terminal
boards. -/
inductive OPlay : Board → Bool → Prop
  | start : OPlay emptyBoard true
  | ostep (b : Board) (c : Fin 3 × Fin 3) :
      OPlay b true → terminalB b = false →
      findBestMove { board := b, currentPlayer := 'O', gameActive := true } =
        ((c.1.val : Int), (c.2.val : Int)) →
      OPlay (place b c.1 c.2 'O') false
  | xstep (b : Board) (c : Fin 3 × Fin 3) :
      OPlay b false → terminalB b = false → b c.1 c.2 = ' ' →
      OPlay (place b c.1 c.2 'X') true

/-- A fixed center-first exploration order over all nine cells (a
permutation of `rmCells`), used only by the certificate search
`oSurvives`. -/
def ttOrder : List (Fin 3 × Fin 3) :=
  [(1, 1), (0, 0), (0, 2), (2, 0), (2, 2), (0, 1), (1, 0), (1, 2), (2, 1)]

/-- Decidable certificate that `'O'` (to move iff `p = 'O'`) can avoid
ever giving `'X'` a completed line: at an `'O'` turn some placement
survives, at an `'X'` turn all placements survive.  Sound for `minimax`
by `oSurvives_minimax_nonneg`. -/
def oSurvives (fuel : Nat) (b : Board) (p : Char) : Bool :=
  if evalIsWinner b 'O' then true
  else if evalIsWinner b 'X' then false
  else if evalIsFull b then true
  else
    match fuel with
    | 0 => false
    | f + 1 =>
      if p = 'O' then
        (ttOrder.filter fun c => b c.1 c.2 == ' ').any fun c =>
          oSurvives f (place b c.1 c.2 'O') 'X'
      else
        (ttOrder.filter fun c => b c.1 c.2 == ' ').all fun c =>
          oSurvives f (place b c.1 c.2 'X') 'O'

/-- The board of the specification's first engine test:
row 0 is `X X .`, row 1 is `O O .`, row 2 empty. -/
def board6 : Board := fun i j =>
  if i.val = 0 then (if j.val = 0 ∨ j.val = 1 then 'X' else ' ')
  else if i.val = 1 then (if j.val = 0 ∨ j.val = 1 then 'O' else ' ')
  else ' '

/-- `board6` wrapped in a game state with `'O'` to move. -/
def state6 : GameState :=
  { board := board6, currentPlayer := 'O', gameActive := true }

/-- A board whose top row is an `'X'` line (other cells empty). -/
def boardXrow : Board := fun i _ => if i.val = 0 then 'X' else ' '

/-- A board whose top row is an `'O'` line (other cells empty). -/
def boardOrow : Board := fun i _ => if i.val = 0 then 'O' else ' '

/-- A full board with no completed line:
`X O X / X O O / O X X`. -/
def boardDraw : Board := fun i j =>
  if i.val = 0 then (if j.val = 0 then 'X' else if j.val = 1 then 'O' else 'X')
  else if i.val = 1 then (if j.val = 0 then 'X' else if j.val = 1 then 'O' else 'O')
  else (if j.val = 0 then 'O' else if j.val = 1 then 'X' else 'X')

/-- The scan-and-keep-strict-improvement accumulator underlying
`findBestMove`, isolated for reasoning: fold over candidates, replacing the
current (score, datum) pair only on a strict score improvement. -/
def selFold {α β : Type} (f : α → Int) (g : α → β) : List α → Int × β → Int × β
  | [], acc => acc
  | c :: l, acc => selFold f g l (if f c > acc.1 then (f c, g c) else acc)

/-! ### Basic lemmas about `place` and the board scans -/

theorem place_same (b : Board) (r c : Fin 3) (m : Char) :
    place b r c m r c = m := by
  simp [place]

theorem place_other (b : Board) (r c : Fin 3) (m : Char) {x y : Fin 3}
    (h : ¬(x = r ∧ y = c)) : place b r c m x y = b x y := by
  simp [place, h]

theorem place_cancel (b : Board) (r c : Fin 3) (m : Char)
    (h : b r c = ' ') : place (place b r c m) r c ' ' = b := by
  funext x y
  by_cases hxy : x = r ∧ y = c
  · rcases hxy with ⟨hx, hy⟩
    subst hx; subst hy
    simp [place, h]
  · simp [place, hxy]

theorem checkWinner_eq_evalIsWinner (s : GameState) (p : Char) :
    checkWinner s p = evalIsWinner s.board p := rfl

theorem mem_rmCells (c : Fin 3 × Fin 3) : c ∈ rmCells := by
  revert c; decide

theorem mem_emptyCellsList {b : Board} {c : Fin 3 × Fin 3} :
    c ∈ emptyCellsList b ↔ b c.1 c.2 = ' ' := by
  simp [emptyCellsList, List.mem_filter, mem_rmCells]

set_option maxHeartbeats 1000000 in
theorem evalIsWinner_iff (b : Board) (p : Char) :
    evalIsWinner b p = true ↔
      ∃ l ∈ winningLines, ∀ c ∈ l, b c.1 c.2 = p := by
  have h3 : List.finRange 3 = [0, 1, 2] := by rfl
  constructor
  · intro h
    simp only [evalIsWinner, h3, List.any_cons, List.any_nil,
      Bool.or_eq_true, Bool.and_eq_true, beq_iff_eq, Bool.false_eq_true,
      or_false] at h
    rcases h with (((h | h) | (h | h) | (h | h)) | h) | h
    · exact ⟨[(0, 0), (0, 1), (0, 2)], by simp [winningLines],
        by simp only [List.forall_mem_cons, List.forall_mem_nil, and_true]
           exact ⟨h.1.1, h.1.2, h.2, by simp⟩⟩
    · exact ⟨[(0, 0), (1, 0), (2, 0)], by simp [winningLines],
        by simp only [List.forall_mem_cons, List.forall_mem_nil, and_true]
           exact ⟨h.1.1, h.1.2, h.2, by simp⟩⟩
    · exact ⟨[(1, 0), (1, 1), (1, 2)], by simp [winningLines],
        by simp only [List.forall_mem_cons, List.forall_mem_nil, and_true]
           exact ⟨h.1.1, h.1.2, h.2, by simp⟩⟩
    · exact ⟨[(0, 1), (1, 1), (2, 1)], by simp [winningLines],
        by simp only [List.forall_mem_cons, List.forall_mem_nil, and_true]
           exact ⟨h.1.1, h.1.2, h.2, by simp⟩⟩
    · exact ⟨[(2, 0), (2, 1), (2, 2)], by simp [winningLines],
        by simp only [List.forall_mem_cons, List.forall_mem_nil, and_true]
           exact ⟨h.1.1, h.1.2, h.2, by simp⟩⟩
    · exact ⟨[(0, 2), (1, 2), (2, 2)], by simp [winningLines],
        by simp only [List.forall_mem_cons, List.forall_mem_nil, and_true]
           exact ⟨h.1.1, h.1.2, h.2, by simp⟩⟩
    · exact ⟨[(0, 0), (1, 1), (2, 2)], by simp [winningLines],
        by simp only [List.forall_mem_cons, List.forall_mem_nil, and_true]
           exact ⟨h.1.1, h.1.2, h.2, by simp⟩⟩
    · exact ⟨[(0, 2), (1, 1), (2, 0)], by simp [winningLines],
        by simp only [List.forall_mem_cons, List.forall_mem_nil, and_true]
           exact ⟨h.1.1, h.1.2, h.2, by simp⟩⟩
  · rintro ⟨l, hl, hall⟩
    fin_cases hl <;>
      simp only [List.forall_mem_cons, List.forall_mem_nil, and_true] at hall <;>
      simp [evalIsWinner, h3, hall.1, hall.2.1, hall.2.2]

theorem evalIsWinner_place_ne {b : Board} {r c : Fin 3} {m p : Char}
    (hne : p ≠ m) (h : evalIsWinner (place b r c m) p = true) :
    evalIsWinner b p = true := by
  rw [evalIsWinner_iff] at h ⊢
  rcases h with ⟨l, hl, hall⟩
  refine ⟨l, hl, fun x hx => ?_⟩
  have hxrc : ¬(x.1 = r ∧ x.2 = c) := by
    intro hcon
    have hpx := hall x hx
    rw [hcon.1, hcon.2, place_same] at hpx
    exact hne hpx.symm
  have hpx := hall x hx
  rwa [place_other b r c m hxrc] at hpx

theorem evalIsFull_iff (b : Board) :
    evalIsFull b = true ↔ emptyCellsList b = [] := by
  constructor
  · intro h
    rw [List.eq_nil_iff_forall_not_mem]
    intro c hc
    have hce : b c.1 c.2 = ' ' := mem_emptyCellsList.mp hc
    have := (List.all_eq_true.mp h) c (mem_rmCells c)
    simp [hce] at this
  · intro h
    rw [evalIsFull, List.all_eq_true]
    intro c _
    by_contra hcon
    simp only [Bool.not_eq_true, Bool.not_eq_false', beq_iff_eq] at hcon
    have : c ∈ emptyCellsList b := mem_emptyCellsList.mpr hcon
    simp [h] at this

theorem evalIsFull_false_iff (b : Board) :
    evalIsFull b = false ↔ emptyCellsList b ≠ [] := by
  rw [ne_eq, ← evalIsFull_iff]
  cases h : evalIsFull b <;> simp

theorem countEmpty_place_lt {b : Board} {r c : Fin 3} {m : Char}
    (he : b r c = ' ') (hm : (m == ' ') = false) :
    countEmpty (place b r c m) < countEmpty b := by
  simp only [countEmpty, emptyCellsList]
  have key : ∀ (l : List (Fin 3 × Fin 3)), l.Nodup → (r, c) ∈ l →
      (l.filter fun x => place b r c m x.1 x.2 == ' ').length <
      (l.filter fun x => b x.1 x.2 == ' ').length := by
    intro l
    induction l with
    | nil => intro _ h; cases h
    | cons a t ih =>
      intro hnd hmem
      have hndt : t.Nodup := (List.nodup_cons.mp hnd).2
      by_cases ha : a = (r, c)
      · subst ha
        have hat : (r, c) ∉ t := (List.nodup_cons.mp hnd).1
        have hfe : (t.filter fun x => place b r c m x.1 x.2 == ' ') =
            (t.filter fun x => b x.1 x.2 == ' ') := by
          apply List.filter_congr
          intro x hx
          have hxne : ¬(x.1 = r ∧ x.2 = c) := by
            intro hcon
            exact hat (by
              have : x = (r, c) := Prod.ext hcon.1 hcon.2
              simpa [this] using hx)
          simp [place, hxne]
        rw [List.filter_cons, List.filter_cons]
        have h1 : (place b r c m r c == ' ') = false := by
          simp [place, hm]
        simp only [h1, he, hfe]
        simp
      · have hmt : (r, c) ∈ t := by
          rcases List.mem_cons.mp hmem with h | h
          · exact absurd h.symm ha
          · exact h
        have hane : ¬(a.1 = r ∧ a.2 = c) := by
          intro hcon
          exact ha (Prod.ext hcon.1 hcon.2)
        have hsame : (place b r c m a.1 a.2 == ' ') = (b a.1 a.2 == ' ') := by
          simp [place, hane]
        rw [List.filter_cons, List.filter_cons, hsame]
        have hlt := ih hndt hmt
        by_cases hb : (b a.1 a.2 == ' ') = true
        · simp only [hb, if_true]
          simpa using hlt
        · simp only [Bool.not_eq_true] at hb
          simp only [hb, if_false]
          exact hlt
  exact key rmCells (by decide) (mem_rmCells (r, c))

theorem countEmpty_le_nine (b : Board) : countEmpty b ≤ 9 := by
  have := List.length_filter_le (fun c : Fin 3 × Fin 3 => b c.1 c.2 == ' ') rmCells
  simpa [countEmpty, emptyCellsList, rmCells] using this

/-! ### Fold lemmas for `max` / `min` over integer lists -/

theorem foldl_max_init_le (l : List Int) (a : Int) : a ≤ l.foldl max a := by
  induction l generalizing a with
  | nil => simp
  | cons x t ih => exact le_trans (le_max_left a x) (ih (max a x))

theorem le_foldl_max_of_mem {l : List Int} {x : Int} (h : x ∈ l) (a : Int) :
    x ≤ l.foldl max a := by
  induction l generalizing a with
  | nil => cases h
  | cons y t ih =>
    rcases List.mem_cons.mp h with rfl | hx
    · exact le_trans (le_max_right a x) (foldl_max_init_le t (max a x))
    · exact ih hx (max a y)

theorem foldl_max_le {l : List Int} {a B : Int} (ha : a ≤ B)
    (h : ∀ x ∈ l, x ≤ B) : l.foldl max a ≤ B := by
  induction l generalizing a with
  | nil => simpa using ha
  | cons y t ih =>
    exact ih (max_le ha (h y (List.mem_cons_self y t)))
      fun x hx => h x (List.mem_cons_of_mem y hx)

theorem foldl_max_eq {l : List Int} {x a : Int} (hmem : x ∈ l) (ha : a ≤ x)
    (hdom : ∀ y ∈ l, y ≤ x) : l.foldl max a = x :=
  le_antisymm (foldl_max_le ha hdom) (le_foldl_max_of_mem hmem a)

theorem foldl_min_init_ge (l : List Int) (a : Int) : l.foldl min a ≤ a := by
  induction l generalizing a with
  | nil => simp
  | cons x t ih => exact le_trans (ih (min a x)) (min_le_left a x)

theorem foldl_min_le_of_mem {l : List Int} {x : Int} (h : x ∈ l) (a : Int) :
    l.foldl min a ≤ x := by
  induction l generalizing a with
  | nil => cases h
  | cons y t ih =>
    rcases List.mem_cons.mp h with rfl | hx
    · exact le_trans (foldl_min_init_ge t (min a x)) (min_le_right a x)
    · exact ih hx (min a y)

theorem le_foldl_min {l : List Int} {a B : Int} (ha : B ≤ a)
    (h : ∀ x ∈ l, B ≤ x) : B ≤ l.foldl min a := by
  induction l generalizing a with
  | nil => simpa using ha
  | cons y t ih =>
    exact ih (le_min ha (h y (List.mem_cons_self y t)))
      fun x hx => h x (List.mem_cons_of_mem y hx)

theorem attach_map_fst {α β : Type} (l : List α) (f : α → β) :
    (l.attach.map fun c => f c.1) = l.map f := by
  simp [List.attach_map_val]

/-! ### Unfolding lemmas for `minimax` -/

theorem minimax_leaf_O {b : Board} (h : evalIsWinner b 'O' = true) (p : Char) :
    minimax b p = 10 := by
  rw [minimax]
  simp [h]

theorem minimax_leaf_X {b : Board} (hO : evalIsWinner b 'O' = false)
    (hX : evalIsWinner b 'X' = true) (p : Char) : minimax b p = -10 := by
  rw [minimax]
  simp [hO, hX]

theorem minimax_leaf_full {b : Board} (hO : evalIsWinner b 'O' = false)
    (hX : evalIsWinner b 'X' = false) (hF : evalIsFull b = true) (p : Char) :
    minimax b p = 0 := by
  rw [minimax]
  simp [hO, hX, hF]

theorem minimax_node_O {b : Board} (hO : evalIsWinner b 'O' = false)
    (hX : evalIsWinner b 'X' = false) (hF : evalIsFull b = false) :
    minimax b 'O' =
      ((emptyCellsList b).map fun c =>
        minimax (place b c.1 c.2 'O') 'X').foldl max (-1000) := by
  rw [minimax]
  simp only [hO, hX, hF, Bool.false_eq_true, if_false, if_pos rfl, if_true]
  exact congrArg (List.foldl max (-1000))
    (attach_map_fst (emptyCellsList b) fun x => minimax (place b x.1 x.2 'O') 'X')

theorem minimax_node_X {b : Board} (hO : evalIsWinner b 'O' = false)
    (hX : evalIsWinner b 'X' = false) (hF : evalIsFull b = false)
    {p : Char} (hp : ¬p = 'O') :
    minimax b p =
      ((emptyCellsList b).map fun c =>
        minimax (place b c.1 c.2 'X') 'O').foldl min 1000 := by
  rw [minimax]
  simp only [hO, hX, hF, Bool.false_eq_true, if_false, hp]
  exact congrArg (List.foldl min 1000)
    (attach_map_fst (emptyCellsList b) fun x => minimax (place b x.1 x.2 'X') 'O')

/-! ### Bounds, fuel sufficiency, and the best-move characterization -/

theorem minimax_bounds_aux :
    ∀ (n : Nat) (b : Board), countEmpty b ≤ n → ∀ p : Char,
      -10 ≤ minimax b p ∧ minimax b p ≤ 10 := by
  intro n
  induction n with
  | zero =>
    intro b hb p
    have hnil : emptyCellsList b = [] := List.length_eq_zero.mp (Nat.le_zero.mp hb)
    have hF : evalIsFull b = true := (evalIsFull_iff b).mpr hnil
    by_cases hO : evalIsWinner b 'O' = true
    · rw [minimax_leaf_O hO]; omega
    · rw [Bool.not_eq_true] at hO
      by_cases hX : evalIsWinner b 'X' = true
      · rw [minimax_leaf_X hO hX]; omega
      · rw [Bool.not_eq_true] at hX
        rw [minimax_leaf_full hO hX hF]; omega
  | succ n ih =>
    intro b hb p
    by_cases hO : evalIsWinner b 'O' = true
    · rw [minimax_leaf_O hO]; omega
    · rw [Bool.not_eq_true] at hO
      by_cases hX : evalIsWinner b 'X' = true
      · rw [minimax_leaf_X hO hX]; omega
      · rw [Bool.not_eq_true] at hX
        by_cases hF : evalIsFull b = true
        · rw [minimax_leaf_full hO hX hF]; omega
        · rw [Bool.not_eq_true] at hF
          have hne : emptyCellsList b ≠ [] := (evalIsFull_false_iff b).mp hF
          have hchild : ∀ c ∈ emptyCellsList b, ∀ (m : Char), (m == ' ') = false →
              ∀ q : Char, -10 ≤ minimax (place b c.1 c.2 m) q ∧
                minimax (place b c.1 c.2 m) q ≤ 10 := by
            intro c hc m hm q
            have hlt : countEmpty (place b c.1 c.2 m) < countEmpty b :=
              countEmpty_place_lt (mem_emptyCellsList.mp hc) hm
            exact ih (place b c.1 c.2 m) (by omega) q
          obtain ⟨c0, hc0⟩ := List.exists_mem_of_ne_nil _ hne
          by_cases hp : p = 'O'
          · subst hp
            rw [minimax_node_O hO hX hF]
            constructor
            · refine le_trans (hchild c0 hc0 'O' (by decide) 'X').1
                (le_foldl_max_of_mem ?_ _)
              exact List.mem_map.mpr ⟨c0, hc0, rfl⟩
            · refine foldl_max_le (by omega) ?_
              intro y hy
              obtain ⟨c, hc, rfl⟩ := List.mem_map.mp hy
              exact (hchild c hc 'O' (by decide) 'X').2
          · rw [minimax_node_X hO hX hF hp]
            constructor
            · refine le_foldl_min (by omega) ?_
              intro y hy
              obtain ⟨c, hc, rfl⟩ := List.mem_map.mp hy
              exact (hchild c hc 'X' (by decide) 'O').1
            · refine le_trans (foldl_min_le_of_mem ?_ _)
                (hchild c0 hc0 'X' (by decide) 'O').2
              exact List.mem_map.mpr ⟨c0, hc0, rfl⟩

theorem minimax_bounds (b : Board) (p : Char) :
    -10 ≤ minimax b p ∧ minimax b p ≤ 10 :=
  minimax_bounds_aux (countEmpty b) b le_rfl p

theorem minimaxF_eq_minimax :
    ∀ (fuel : Nat) (b : Board), countEmpty b ≤ fuel → ∀ p : Char,
      minimaxF fuel b p = minimax b p := by
  intro fuel
  induction fuel with
  | zero =>
    intro b hb p
    have hnil : emptyCellsList b = [] := List.length_eq_zero.mp (Nat.le_zero.mp hb)
    have hF : evalIsFull b = true := (evalIsFull_iff b).mpr hnil
    by_cases hO : evalIsWinner b 'O' = true
    · rw [minimax_leaf_O hO, minimaxF]; simp [hO]
    · rw [Bool.not_eq_true] at hO
      by_cases hX : evalIsWinner b 'X' = true
      · rw [minimax_leaf_X hO hX, minimaxF]; simp [hO, hX]
      · rw [Bool.not_eq_true] at hX
        rw [minimax_leaf_full hO hX hF, minimaxF]; simp [hO, hX, hF]
  | succ f ih =>
    intro b hb p
    by_cases hO : evalIsWinner b 'O' = true
    · rw [minimax_leaf_O hO, minimaxF]; simp [hO]
    · rw [Bool.not_eq_true] at hO
      by_cases hX : evalIsWinner b 'X' = true
      · rw [minimax_leaf_X hO hX, minimaxF]; simp [hO, hX]
      · rw [Bool.not_eq_true] at hX
        by_cases hF : evalIsFull b = true
        · rw [minimax_leaf_full hO hX hF, minimaxF]; simp [hO, hX, hF]
        · rw [Bool.not_eq_true] at hF
          have hchild : ∀ c ∈ emptyCellsList b, ∀ (m : Char), (m == ' ') = false →
              countEmpty (place b c.1 c.2 m) ≤ f := by
            intro c hc m hm
            have hlt : countEmpty (place b c.1 c.2 m) < countEmpty b :=
              countEmpty_place_lt (mem_emptyCellsList.mp hc) hm
            omega
          by_cases hp : p = 'O'
          · subst hp
            rw [minimax_node_O hO hX hF, minimaxF]
            simp only [hO, hX, hF, Bool.false_eq_true, if_false, if_pos rfl, if_true]
            congr 1
            apply List.map_congr_left
            intro c hc
            exact ih (place b c.1 c.2 'O') (hchild c hc 'O' (by decide)) 'X'
          · rw [minimax_node_X hO hX hF hp, minimaxF]
            simp only [hO, hX, hF, Bool.false_eq_true, if_false, hp]
            congr 1
            apply List.map_congr_left
            intro c hc
            exact ih (place b c.1 c.2 'X') (hchild c hc 'X' (by decide)) 'O'

theorem foldl_if_filter {α β : Type} (p : α → Bool) (g : β → α → β) :
    ∀ (l : List α) (init : β),
      l.foldl (fun acc c => if p c then g acc c else acc) init =
        (l.filter p).foldl g init := by
  intro l
  induction l with
  | nil => intro init; rfl
  | cons a t ih =>
    intro init
    rw [List.foldl_cons, List.filter_cons]
    by_cases h : p a = true
    · rw [if_pos h, if_pos h, List.foldl_cons]
      exact ih (g init a)
    · rw [Bool.not_eq_true] at h
      rw [h]
      simp only [Bool.false_eq_true, if_false]
      exact ih init

theorem selFold_eq_foldl {α β : Type} (f : α → Int) (g : α → β) :
    ∀ (l : List α) (acc : Int × β),
      selFold f g l acc =
        l.foldl (fun a c => if f c > a.1 then (f c, g c) else a) acc := by
  intro l
  induction l with
  | nil => intro acc; rfl
  | cons a t ih =>
    intro acc
    rw [List.foldl_cons, selFold]
    exact ih _

theorem selFold_spec {α β : Type} (f : α → Int) (g : α → β) :
    ∀ (l : List α) (s : Int) (d : β),
      ((∀ c ∈ l, f c ≤ s) → selFold f g l (s, d) = (s, d)) ∧
      ((∃ c ∈ l, s < f c) →
        ∃ pre c suf, l = pre ++ c :: suf ∧
          (∀ x ∈ pre, f x < f c) ∧ (∀ x ∈ suf, f x ≤ f c) ∧ s < f c ∧
          selFold f g l (s, d) = (f c, g c)) := by
  intro l
  induction l with
  | nil =>
    intro s d
    refine ⟨fun _ => rfl, ?_⟩
    rintro ⟨c, hc, _⟩
    cases hc
  | cons a t ih =>
    intro s d
    constructor
    · intro hall
      have ha : f a ≤ s := hall a (List.mem_cons_self a t)
      rw [selFold, if_neg (not_lt.mpr ha)]
      exact (ih s d).1 fun c hc => hall c (List.mem_cons_of_mem a hc)
    · rintro ⟨c0, hc0, hlt0⟩
      by_cases hfa : s < f a
      · rw [selFold, if_pos hfa]
        by_cases hbig : ∃ c ∈ t, f a < f c
        · obtain ⟨pre, c, suf, hsplit, hpre, hsuf, hac, hres⟩ :=
            (ih (f a) (g a)).2 hbig
          refine ⟨a :: pre, c, suf, by rw [hsplit]; rfl, ?_, hsuf,
            lt_trans hfa hac, hres⟩
          intro x hx
          rcases List.mem_cons.mp hx with rfl | hx
          · exact hac
          · exact hpre x hx
        · push_neg at hbig
          refine ⟨[], a, t, rfl, by simp, hbig, hfa, ?_⟩
          exact (ih (f a) (g a)).1 hbig
      · rw [selFold, if_neg hfa]
        have hc0t : c0 ∈ t := by
          rcases List.mem_cons.mp hc0 with rfl | h
          · exact absurd hlt0 hfa
          · exact h
        obtain ⟨pre, c, suf, hsplit, hpre, hsuf, hsc, hres⟩ :=
          (ih s d).2 ⟨c0, hc0t, hlt0⟩
        refine ⟨a :: pre, c, suf, by rw [hsplit]; rfl, ?_, hsuf, hsc, hres⟩
        intro x hx
        rcases List.mem_cons.mp hx with rfl | hx
        · exact lt_of_le_of_lt (not_lt.mp hfa) hsc
        · exact hpre x hx

theorem findBestMove_eq_selFold (s : GameState) :
    findBestMove s =
      (selFold (fun c : Fin 3 × Fin 3 => minimax (place s.board c.1 c.2 'O') 'X')
        (fun c => ((c.1.val : Int), (c.2.val : Int)))
        (emptyCellsList s.board) (-1000, (-1, -1))).2 := by
  rw [selFold_eq_foldl]
  rw [findBestMove]
  rw [show emptyCellsList s.board = rmCells.filter fun c => s.board c.1 c.2 == ' '
    from rfl]
  rw [← foldl_if_filter (fun c : Fin 3 × Fin 3 => s.board c.1 c.2 == ' ')
    (fun a c => if minimax (place s.board c.1 c.2 'O') 'X' > a.1
      then (minimax (place s.board c.1 c.2 'O') 'X',
        ((c.1.val : Int), (c.2.val : Int))) else a) rmCells (-1000, (-1, -1))]

theorem findBestMoveF_eq_selFold (s : GameState) :
    findBestMoveF s =
      (selFold (fun c : Fin 3 × Fin 3 => minimaxF 9 (place s.board c.1 c.2 'O') 'X')
        (fun c => ((c.1.val : Int), (c.2.val : Int)))
        (emptyCellsList s.board) (-1000, (-1, -1))).2 := by
  rw [selFold_eq_foldl]
  rw [findBestMoveF]
  rw [show emptyCellsList s.board = rmCells.filter fun c => s.board c.1 c.2 == ' '
    from rfl]
  rw [← foldl_if_filter (fun c : Fin 3 × Fin 3 => s.board c.1 c.2 == ' ')
    (fun a c => if minimaxF 9 (place s.board c.1 c.2 'O') 'X' > a.1
      then (minimaxF 9 (place s.board c.1 c.2 'O') 'X',
        ((c.1.val : Int), (c.2.val : Int))) else a) rmCells (-1000, (-1, -1))]

theorem findBestMove_eq_F (s : GameState) : findBestMove s = findBestMoveF s := by
  rw [findBestMove_eq_selFold, findBestMoveF_eq_selFold]
  have hfe : (fun c : Fin 3 × Fin 3 => minimaxF 9 (place s.board c.1 c.2 'O') 'X') =
      fun c : Fin 3 × Fin 3 => minimax (place s.board c.1 c.2 'O') 'X' := by
    funext c
    exact minimaxF_eq_minimax 9 _ (countEmpty_le_nine _) 'X'
  rw [hfe]

theorem findBestMove_char (s : GameState) :
    (emptyCellsList s.board = [] → findBestMove s = (-1, -1)) ∧
    (emptyCellsList s.board ≠ [] →
      ∃ pre c suf, emptyCellsList s.board = pre ++ c :: suf ∧
        findBestMove s = ((c.1.val : Int), (c.2.val : Int)) ∧
        (∀ x ∈ pre, minimax (place s.board x.1 x.2 'O') 'X' <
          minimax (place s.board c.1 c.2 'O') 'X') ∧
        (∀ x ∈ suf, minimax (place s.board x.1 x.2 'O') 'X' ≤
          minimax (place s.board c.1 c.2 'O') 'X')) := by
  constructor
  · intro hnil
    rw [findBestMove_eq_selFold, hnil]
    rfl
  · intro hne
    obtain ⟨c0, hc0⟩ := List.exists_mem_of_ne_nil _ hne
    have hgt : (-1000 : Int) < minimax (place s.board c0.1 c0.2 'O') 'X' := by
      have := (minimax_bounds (place s.board c0.1 c0.2 'O') 'X').1
      omega
    obtain ⟨pre, c, suf, hsplit, hpre, hsuf, _, hres⟩ :=
      (selFold_spec (fun c : Fin 3 × Fin 3 => minimax (place s.board c.1 c.2 'O') 'X')
        (fun c => ((c.1.val : Int), (c.2.val : Int)))
        (emptyCellsList s.board) (-1000) ((-1 : Int), (-1 : Int))).2 ⟨c0, hc0, hgt⟩
    exact ⟨pre, c, suf, hsplit, by rw [findBestMove_eq_selFold, hres], hpre, hsuf⟩

/-! ### Characterization of `makeMove` -/

theorem makeMove_char (s : GameState) (row col : Int) (player : Char) :
    ((makeMove s row col player).1 = true ↔
      ∃ i j : Fin 3, (i.val : Int) = row ∧ (j.val : Int) = col ∧
        s.board i j = ' ' ∧ s.gameActive = true) ∧
    ((makeMove s row col player).1 = true →
      ∀ i j : Fin 3, (makeMove s row col player).2.board i j =
        if (i.val : Int) = row ∧ (j.val : Int) = col then player
        else s.board i j) ∧
    ((makeMove s row col player).1 = false →
      (makeMove s row col player).2 = s) ∧
    (makeMove s row col player).2.currentPlayer = s.currentPlayer ∧
    (makeMove s row col player).2.gameActive = s.gameActive := by
  unfold makeMove
  split
  next h =>
    split
    next hcond =>
      refine ⟨⟨fun _ => ?_, fun _ => rfl⟩, fun _ i j => ?_, fun hf => ?_, rfl, rfl⟩
      · exact ⟨⟨row.toNat, by omega⟩, ⟨col.toNat, by omega⟩,
          by show ((row.toNat : Nat) : Int) = row; omega,
          by show ((col.toNat : Nat) : Int) = col; omega,
          hcond.1, hcond.2⟩
      · by_cases hij : (i.val : Int) = row ∧ (j.val : Int) = col
        · have hieq : i = (⟨row.toNat, by omega⟩ : Fin 3) := by
            apply Fin.ext
            show i.val = row.toNat
            have := hij.1
            omega
          have hjeq : j = (⟨col.toNat, by omega⟩ : Fin 3) := by
            apply Fin.ext
            show j.val = col.toNat
            have := hij.2
            omega
          rw [if_pos hij]
          simp [place, hieq, hjeq]
        · have hne : ¬(i = (⟨row.toNat, by omega⟩ : Fin 3) ∧
              j = (⟨col.toNat, by omega⟩ : Fin 3)) := by
            intro hcon
            apply hij
            constructor
            · rw [hcon.1]
              show ((row.toNat : Nat) : Int) = row
              omega
            · rw [hcon.2]
              show ((col.toNat : Nat) : Int) = col
              omega
          rw [if_neg hij]
          exact place_other s.board _ _ player hne
      · exact absurd hf (by simp)
    next hcond =>
      refine ⟨⟨fun hf => absurd hf (by simp), ?_⟩, fun hf => absurd hf (by simp),
        fun _ => rfl, rfl, rfl⟩
      rintro ⟨i, j, hi, hj, hcell, hact⟩
      exfalso
      apply hcond
      have hieq : i = (⟨row.toNat, by omega⟩ : Fin 3) := by
        apply Fin.ext
        show i.val = row.toNat
        omega
      have hjeq : j = (⟨col.toNat, by omega⟩ : Fin 3) := by
        apply Fin.ext
        show j.val = col.toNat
        omega
      rw [hieq, hjeq] at hcell
      exact ⟨hcell, hact⟩
  next h =>
    refine ⟨⟨fun hf => absurd hf (by simp), ?_⟩, fun hf => absurd hf (by simp),
      fun _ => rfl, rfl, rfl⟩
    rintro ⟨i, j, hi, hj, _, _⟩
    exfalso
    have h1 := i.isLt
    have h2 := j.isLt
    exact h ⟨by omega, by omega, by omega, by omega⟩

/-! ### The turn-controller invariant -/

theorem reachable_inv (s : GameState) (h : Reachable s) :
    (s.currentPlayer = 'X' ∨ s.currentPlayer = 'O') ∧
    (s.gameActive = true →
      evalIsWinner s.board 'X' = false ∧ evalIsWinner s.board 'O' = false) ∧
    ¬(evalIsWinner s.board 'X' = true ∧ evalIsWinner s.board 'O' = true) := by
  induction h with
  | init =>
    exact ⟨Or.inl rfl, fun _ => ⟨by decide, by decide⟩, by decide⟩
  | step s row col hs ih =>
    obtain ⟨hcp, hact_inv, hnb⟩ := ih
    simp only [stepResult]
    by_cases hok : (makeMove s row col s.currentPlayer).1 = true
    · rw [if_pos hok]
      have hchar := makeMove_char s row col s.currentPlayer
      obtain ⟨i, j, hi, hj, hcell, hactive⟩ := hchar.1.mp hok
      have hnow := hact_inv hactive
      have hcp' := hchar.2.2.2.1
      have hga' := hchar.2.2.2.2
      have hboard := hchar.2.1 hok
      have hbp : (makeMove s row col s.currentPlayer).2.board =
          place s.board i j s.currentPlayer := by
        funext x y
        rw [hboard x y]
        by_cases hxy : x = i ∧ y = j
        · have hc1 : (x.val : Int) = row := by rw [hxy.1]; exact hi
          have hc2 : (y.val : Int) = col := by rw [hxy.2]; exact hj
          rw [if_pos ⟨hc1, hc2⟩]
          simp [place, hxy.1, hxy.2]
        · have hne2 : ¬((x.val : Int) = row ∧ (y.val : Int) = col) := by
            intro hcon
            apply hxy
            constructor
            · apply Fin.ext
              have h1 := hcon.1
              omega
            · apply Fin.ext
              have h2 := hcon.2
              omega
          rw [if_neg hne2, place_other s.board i j _ hxy]
      have hother : ∀ p : Char, p ≠ s.currentPlayer →
          (p = 'X' ∨ p = 'O') →
          evalIsWinner (makeMove s row col s.currentPlayer).2.board p = false := by
        intro p hp hpXO
        by_contra hcon
        rw [Bool.not_eq_false] at hcon
        rw [hbp] at hcon
        have hw := evalIsWinner_place_ne hp hcon
        rcases hpXO with rfl | rfl
        · rw [hnow.1] at hw
          cases hw
        · rw [hnow.2] at hw
          cases hw
      by_cases hwin :
          checkWinner (makeMove s row col s.currentPlayer).2
            (makeMove s row col s.currentPlayer).2.currentPlayer = true
      · rw [if_pos hwin]
        refine ⟨?_, ?_, ?_⟩
        · show (makeMove s row col s.currentPlayer).2.currentPlayer = 'X' ∨
            (makeMove s row col s.currentPlayer).2.currentPlayer = 'O'
          rw [hcp']
          exact hcp
        · intro hf
          exact absurd hf (by simp)
        · show ¬(evalIsWinner (makeMove s row col s.currentPlayer).2.board 'X' = true ∧
            evalIsWinner (makeMove s row col s.currentPlayer).2.board 'O' = true)
          rintro ⟨hX, hO⟩
          rcases hcp with hm | hm
          · have hfo := hother 'O' (by rw [hm]; decide) (Or.inr rfl)
            rw [hfo] at hO
            cases hO
          · have hfx := hother 'X' (by rw [hm]; decide) (Or.inl rfl)
            rw [hfx] at hX
            cases hX
      · rw [if_neg hwin]
        have hwm : evalIsWinner (makeMove s row col s.currentPlayer).2.board
            s.currentPlayer = false := by
          rw [Bool.not_eq_true] at hwin
          rw [checkWinner_eq_evalIsWinner, hcp'] at hwin
          exact hwin
        have hboth :
            evalIsWinner (makeMove s row col s.currentPlayer).2.board 'X' = false ∧
            evalIsWinner (makeMove s row col s.currentPlayer).2.board 'O' = false := by
          rcases hcp with hm | hm
          · exact ⟨by rw [← hm]; exact hwm, hother 'O' (by rw [hm]; decide) (Or.inr rfl)⟩
          · exact ⟨hother 'X' (by rw [hm]; decide) (Or.inl rfl), by rw [← hm]; exact hwm⟩
        by_cases hfull : isFull (makeMove s row col s.currentPlayer).2 = true
        · rw [if_pos hfull]
          refine ⟨?_, ?_, ?_⟩
          · show (makeMove s row col s.currentPlayer).2.currentPlayer = 'X' ∨
              (makeMove s row col s.currentPlayer).2.currentPlayer = 'O'
            rw [hcp']
            exact hcp
          · intro hf
            exact absurd hf (by simp)
          · show ¬(evalIsWinner (makeMove s row col s.currentPlayer).2.board 'X' = true ∧
              evalIsWinner (makeMove s row col s.currentPlayer).2.board 'O' = true)
            rintro ⟨hX, _⟩
            rw [hboth.1] at hX
            cases hX
        · rw [if_neg hfull]
          refine ⟨?_, ?_, ?_⟩
          · show (if (makeMove s row col s.currentPlayer).2.currentPlayer = 'X'
                then 'O' else 'X') = 'X' ∨
              (if (makeMove s row col s.currentPlayer).2.currentPlayer = 'X'
                then 'O' else 'X') = 'O'
            by_cases hx : (makeMove s row col s.currentPlayer).2.currentPlayer = 'X'
            · rw [if_pos hx]
              exact Or.inr rfl
            · rw [if_neg hx]
              exact Or.inl rfl
          · intro _
            exact hboth
          · show ¬(evalIsWinner (makeMove s row col s.currentPlayer).2.board 'X' = true ∧
              evalIsWinner (makeMove s row col s.currentPlayer).2.board 'O' = true)
            rintro ⟨hX, _⟩
            rw [hboth.1] at hX
            cases hX
    · rw [if_neg hok]
      exact ⟨hcp, hact_inv, hnb⟩

/-! ### Soundness of the survival certificate and the O-never-loses invariant -/

theorem mem_ttOrder (c : Fin 3 × Fin 3) : c ∈ ttOrder := by
  revert c; decide

theorem terminalB_false {b : Board} (h : terminalB b = false) :
    evalIsWinner b 'O' = false ∧ evalIsWinner b 'X' = false ∧
    evalIsFull b = false := by
  simp only [terminalB, Bool.or_eq_false_iff] at h
  exact ⟨h.1.1, h.1.2, h.2⟩

theorem oSurvives_minimax_nonneg :
    ∀ (fuel : Nat) (b : Board) (p : Char),
      oSurvives fuel b p = true → 0 ≤ minimax b p := by
  intro fuel
  induction fuel with
  | zero =>
    intro b p hs
    by_cases hO : evalIsWinner b 'O' = true
    · rw [minimax_leaf_O hO]
      omega
    · rw [Bool.not_eq_true] at hO
      by_cases hX : evalIsWinner b 'X' = true
      · rw [oSurvives] at hs
        simp [hO, hX] at hs
      · rw [Bool.not_eq_true] at hX
        by_cases hF : evalIsFull b = true
        · rw [minimax_leaf_full hO hX hF]
        · rw [Bool.not_eq_true] at hF
          rw [oSurvives] at hs
          simp [hO, hX, hF] at hs
  | succ f ih =>
    intro b p hs
    by_cases hO : evalIsWinner b 'O' = true
    · rw [minimax_leaf_O hO]
      omega
    · rw [Bool.not_eq_true] at hO
      by_cases hX : evalIsWinner b 'X' = true
      · rw [oSurvives] at hs
        simp [hO, hX] at hs
      · rw [Bool.not_eq_true] at hX
        by_cases hF : evalIsFull b = true
        · rw [minimax_leaf_full hO hX hF]
        · rw [Bool.not_eq_true] at hF
          by_cases hp : p = 'O'
          · subst hp
            rw [oSurvives] at hs
            simp only [hO, hX, hF, Bool.false_eq_true, if_false, if_pos rfl,
              if_true, List.any_eq_true] at hs
            obtain ⟨c, hcmem, hcs⟩ := hs
            have hcell : b c.1 c.2 = ' ' := by
              rw [List.mem_filter] at hcmem
              simpa using hcmem.2
            have hval := ih (place b c.1 c.2 'O') 'X' hcs
            rw [minimax_node_O hO hX hF]
            refine le_trans hval (le_foldl_max_of_mem ?_ _)
            exact List.mem_map.mpr ⟨c, mem_emptyCellsList.mpr hcell, rfl⟩
          · rw [minimax_node_X hO hX hF hp]
            rw [oSurvives] at hs
            simp only [hO, hX, hF, Bool.false_eq_true, if_false, hp,
              List.all_eq_true] at hs
            refine le_foldl_min (by omega) ?_
            intro y hy
            obtain ⟨c, hc, rfl⟩ := List.mem_map.mp hy
            have hcell := mem_emptyCellsList.mp hc
            have hmem2 : c ∈ ttOrder.filter fun x => b x.1 x.2 == ' ' := by
              rw [List.mem_filter]
              exact ⟨mem_ttOrder c, by simp [hcell]⟩
            exact ih _ _ (hs c hmem2)

theorem oplay_inv (b : Board) (t : Bool) (h : OPlay b t) :
    evalIsWinner b 'X' = false ∧
    (t = true → 0 ≤ minimax b 'O') ∧
    (t = false → 0 ≤ minimax b 'X') := by
  induction h with
  | start =>
    refine ⟨by decide, fun _ => ?_, fun hf => absurd hf (by decide)⟩
    exact oSurvives_minimax_nonneg 9 emptyBoard 'O' (by rfl)
  | ostep b c hb hnt hbest ih =>
    obtain ⟨hxf, hvO, _⟩ := ih
    have hv : 0 ≤ minimax b 'O' := hvO rfl
    obtain ⟨hO, hX, hF⟩ := terminalB_false hnt
    have hne : emptyCellsList b ≠ [] := (evalIsFull_false_iff b).mp hF
    have hchar := (findBestMove_char
      { board := b, currentPlayer := 'O', gameActive := true }).2
    dsimp only at hchar
    obtain ⟨pre, c2, suf, hsplit, hres, hpre, hsuf⟩ := hchar hne
    have hceq : c = c2 := by
      have heq : ((c.1.val : Int), (c.2.val : Int)) =
          ((c2.1.val : Int), (c2.2.val : Int)) := by
        rw [← hbest, hres]
      have h1 : (c.1.val : Int) = (c2.1.val : Int) := congrArg Prod.fst heq
      have h2 : (c.2.val : Int) = (c2.2.val : Int) := congrArg Prod.snd heq
      refine Prod.ext (Fin.ext ?_) (Fin.ext ?_) <;> omega
    subst hceq
    have hcmem : c ∈ emptyCellsList b := by
      rw [hsplit]
      exact List.mem_append_right _ (List.mem_cons_self _ _)
    have hdom : ∀ x ∈ emptyCellsList b,
        minimax (place b x.1 x.2 'O') 'X' ≤ minimax (place b c.1 c.2 'O') 'X' := by
      intro x hx
      rw [hsplit] at hx
      rcases List.mem_append.mp hx with hx | hx
      · exact le_of_lt (hpre x hx)
      · rcases List.mem_cons.mp hx with rfl | hx
        · exact le_rfl
        · exact hsuf x hx
    have hmax : minimax (place b c.1 c.2 'O') 'X' = minimax b 'O' := by
      rw [minimax_node_O hO hX hF]
      symm
      apply foldl_max_eq (List.mem_map.mpr ⟨c, hcmem, rfl⟩)
      · have := (minimax_bounds (place b c.1 c.2 'O') 'X').1
        omega
      · intro y hy
        obtain ⟨x, hx, rfl⟩ := List.mem_map.mp hy
        exact hdom x hx
    refine ⟨?_, fun hf => absurd hf (by decide), fun _ => ?_⟩
    · by_contra hcon
      rw [Bool.not_eq_false] at hcon
      have hw := evalIsWinner_place_ne (by decide : ('X' : Char) ≠ 'O') hcon
      rw [hxf] at hw
      cases hw
    · rw [hmax]
      exact hv
  | xstep b c hb hnt hcell ih =>
    obtain ⟨hxf, _, hvX⟩ := ih
    have hv : 0 ≤ minimax b 'X' := hvX rfl
    obtain ⟨hO, hX, hF⟩ := terminalB_false hnt
    have hstep : minimax b 'X' ≤ minimax (place b c.1 c.2 'X') 'O' := by
      rw [minimax_node_X hO hX hF (by decide : ¬('X' : Char) = 'O')]
      apply foldl_min_le_of_mem
      exact List.mem_map.mpr ⟨c, mem_emptyCellsList.mpr hcell, rfl⟩
    have hvv : 0 ≤ minimax (place b c.1 c.2 'X') 'O' := le_trans hv hstep
    have hOnew : evalIsWinner (place b c.1 c.2 'X') 'O' = false := by
      by_contra hcon
      rw [Bool.not_eq_false] at hcon
      have hw := evalIsWinner_place_ne (by decide : ('O' : Char) ≠ 'X') hcon
      rw [hO] at hw
      cases hw
    refine ⟨?_, fun _ => ?_, fun hf => absurd hf (by decide)⟩
    · by_contra hcon
      rw [Bool.not_eq_false] at hcon
      have hleaf := minimax_leaf_X hOnew hcon 'O'
      omega
    · exact hvv

/-! ### The place/retract discipline restores the explored board -/

theorem foldl_preserves {α β : Type} (P : β → Prop) (g : β → α → β)
    (hpres : ∀ acc a, P acc → P (g acc a)) :
    ∀ (l : List α) (acc : β), P acc → P (l.foldl g acc) := by
  intro l
  induction l with
  | nil => intro acc h; exact h
  | cons a t ih =>
    intro acc h
    rw [List.foldl_cons]
    exact ih (g acc a) (hpres acc a h)

theorem minimaxSt_snd :
    ∀ (fuel : Nat) (bc : Board) (p : Char), (minimaxSt fuel bc p).2 = bc := by
  intro fuel
  induction fuel with
  | zero =>
    intro bc p
    rw [minimaxSt]
    split_ifs <;> rfl
  | succ f ih =>
    intro bc p
    rw [minimaxSt]
    split_ifs with h1 h2 h3 h4
    · rfl
    · rfl
    · rfl
    · refine foldl_preserves (fun acc : Int × Board => acc.2 = bc) _ ?_ rmCells
        (-1000, bc) rfl
      intro acc c hP
      by_cases hcc : (acc.2 c.1 c.2 == ' ') = true
      · simp only [hcc, if_true]
        rw [ih]
        rw [place_cancel acc.2 c.1 c.2 'O' (by simpa using hcc)]
        exact hP
      · simp only [Bool.not_eq_true] at hcc
        simp only [hcc, Bool.false_eq_true, if_false]
        exact hP
    · refine foldl_preserves (fun acc : Int × Board => acc.2 = bc) _ ?_ rmCells
        (1000, bc) rfl
      intro acc c hP
      by_cases hcc : (acc.2 c.1 c.2 == ' ') = true
      · simp only [hcc, if_true]
        rw [ih]
        rw [place_cancel acc.2 c.1 c.2 'X' (by simpa using hcc)]
        exact hP
      · simp only [Bool.not_eq_true] at hcc
        simp only [hcc, Bool.false_eq_true, if_false]
        exact hP

theorem minimaxSt_fst :
    ∀ (fuel : Nat) (b : Board) (p : Char),
      (minimaxSt fuel b p).1 = minimaxF fuel b p := by
  intro fuel
  induction fuel with
  | zero =>
    intro b p
    rw [minimaxSt, minimaxF]
    split_ifs <;> rfl
  | succ f ih =>
    intro b p
    have hfold : ∀ (m : Char), (m == ' ') = false → ∀ (l : List (Fin 3 × Fin 3)),
        ∀ (q : Char) (op : Int → Int → Int) (sc : Int),
        (l.foldl (fun acc c =>
          if acc.2 c.1 c.2 == ' ' then
            (op acc.1 (minimaxSt f (place acc.2 c.1 c.2 m) q).1,
              place (minimaxSt f (place acc.2 c.1 c.2 m) q).2 c.1 c.2 ' ')
          else acc) (sc, b)) =
        (((l.filter fun c => b c.1 c.2 == ' ').map fun c =>
          minimaxF f (place b c.1 c.2 m) q).foldl op sc, b) := by
      intro m hm l
      induction l with
      | nil => intro q op sc; rfl
      | cons c t ihl =>
        intro q op sc
        rw [List.foldl_cons, List.filter_cons]
        by_cases hcc : (b c.1 c.2 == ' ') = true
        · simp only [hcc, if_true, List.map_cons, List.foldl_cons]
          have h2 : place (minimaxSt f (place b c.1 c.2 m) q).2 c.1 c.2 ' ' = b := by
            rw [minimaxSt_snd]
            exact place_cancel b c.1 c.2 m (by simpa using hcc)
          rw [ih, h2]
          exact ihl q op (op sc (minimaxF f (place b c.1 c.2 m) q))
        · simp only [Bool.not_eq_true] at hcc
          simp only [hcc, Bool.false_eq_true, if_false]
          exact ihl q op sc
    rw [minimaxSt, minimaxF]
    split_ifs with h1 h2 h3 h4
    · rfl
    · rfl
    · rfl
    · have := hfold 'O' (by decide) rmCells 'X' max (-1000)
      calc (rmCells.foldl (fun acc c =>
            if acc.2 c.1 c.2 == ' ' then
              (max acc.1 (minimaxSt f (place acc.2 c.1 c.2 'O') 'X').1,
                place (minimaxSt f (place acc.2 c.1 c.2 'O') 'X').2 c.1 c.2 ' ')
            else acc) (-1000, b)).1
          = (((rmCells.filter fun c => b c.1 c.2 == ' ').map fun c =>
              minimaxF f (place b c.1 c.2 'O') 'X').foldl max (-1000), b).1 := by
              rw [this]
        _ = ((emptyCellsList b).map fun c =>
              minimaxF f (place b c.1 c.2 'O') 'X').foldl max (-1000) := rfl
    · have := hfold 'X' (by decide) rmCells 'O' min 1000
      calc (rmCells.foldl (fun acc c =>
            if acc.2 c.1 c.2 == ' ' then
              (min acc.1 (minimaxSt f (place acc.2 c.1 c.2 'X') 'O').1,
                place (minimaxSt f (place acc.2 c.1 c.2 'X') 'O').2 c.1 c.2 ' ')
            else acc) (1000, b)).1
          = (((rmCells.filter fun c => b c.1 c.2 == ' ').map fun c =>
              minimaxF f (place b c.1 c.2 'X') 'O').foldl min 1000, b).1 := by
              rw [this]
        _ = ((emptyCellsList b).map fun c =>
              minimaxF f (place b c.1 c.2 'X') 'O').foldl min 1000 := rfl

theorem findBestMoveSt_eq (s : GameState) :
    findBestMoveSt s = (findBestMove s, s.board) := by
  have key : ∀ (l : List (Fin 3 × Fin 3)) (sc : Int) (mv : Int × Int),
      (l.foldl (fun acc c =>
        if acc.2.2 c.1 c.2 == ' ' then
          if (minimaxSt 9 (place acc.2.2 c.1 c.2 'O') 'X').1 > acc.1 then
            ((minimaxSt 9 (place acc.2.2 c.1 c.2 'O') 'X').1,
              ((c.1.val : Int), (c.2.val : Int)),
              place (minimaxSt 9 (place acc.2.2 c.1 c.2 'O') 'X').2 c.1 c.2 ' ')
          else (acc.1, acc.2.1,
            place (minimaxSt 9 (place acc.2.2 c.1 c.2 'O') 'X').2 c.1 c.2 ' ')
        else acc) (sc, mv, s.board)) =
      ((l.foldl (fun acc c =>
        if s.board c.1 c.2 == ' ' then
          if minimax (place s.board c.1 c.2 'O') 'X' > acc.1 then
            (minimax (place s.board c.1 c.2 'O') 'X',
              ((c.1.val : Int), (c.2.val : Int)))
          else acc
        else acc) (sc, mv)).1,
       (l.foldl (fun acc c =>
        if s.board c.1 c.2 == ' ' then
          if minimax (place s.board c.1 c.2 'O') 'X' > acc.1 then
            (minimax (place s.board c.1 c.2 'O') 'X',
              ((c.1.val : Int), (c.2.val : Int)))
          else acc
        else acc) (sc, mv)).2, s.board) := by
    intro l
    induction l with
    | nil => intro sc mv; rfl
    | cons c t ihl =>
      intro sc mv
      rw [List.foldl_cons, List.foldl_cons]
      have hm1 : (minimaxSt 9 (place s.board c.1 c.2 'O') 'X').1 =
          minimax (place s.board c.1 c.2 'O') 'X' := by
        rw [minimaxSt_fst]
        exact minimaxF_eq_minimax 9 _ (countEmpty_le_nine _) 'X'
      by_cases hcc : (s.board c.1 c.2 == ' ') = true
      · have hbc : place (minimaxSt 9 (place s.board c.1 c.2 'O') 'X').2 c.1 c.2 ' ' =
            s.board := by
          rw [minimaxSt_snd]
          exact place_cancel s.board c.1 c.2 'O' (by simpa using hcc)
        simp only [hcc, if_true, hm1, hbc]
        by_cases hgt : minimax (place s.board c.1 c.2 'O') 'X' > sc
        · rw [if_pos hgt, if_pos hgt]
          exact ihl _ _
        · rw [if_neg hgt, if_neg hgt]
          exact ihl _ _
      · simp only [Bool.not_eq_true] at hcc
        simp only [hcc, Bool.false_eq_true, if_false]
        exact ihl sc mv
  rw [findBestMoveSt, findBestMove]
  rw [key rmCells (-1000) (-1, -1)]

/-! ### The claimed properties -/

/-- Claim C1: `makeMove(row, col, player)` returns `true` iff the
coordinates are in range, the addressed cell is Empty, and the game is
active; on success it writes `player` into exactly that cell (leaving every
other cell, the current player and the active flag unchanged); on failure
it leaves the whole state unchanged; in particular on a game-over state it
always fails and changes nothing. -/
theorem makeMove_validation_spec (s : GameState) (row col : Int) (player : Char) :
    ((makeMove s row col player).1 = true ↔
      ∃ i j : Fin 3, (i.val : Int) = row ∧ (j.val : Int) = col ∧
        s.board i j = ' ' ∧ s.gameActive = true) ∧
    ((makeMove s row col player).1 = true →
      ∀ i j : Fin 3, (makeMove s row col player).2.board i j =
        if (i.val : Int) = row ∧ (j.val : Int) = col then player
        else s.board i j) ∧
    ((makeMove s row col player).1 = false →
      (makeMove s row col player).2 = s) ∧
    (makeMove s row col player).2.currentPlayer = s.currentPlayer ∧
    (makeMove s row col player).2.gameActive = s.gameActive ∧
    (s.gameActive = false →
      (makeMove s row col player).1 = false ∧
      (makeMove s row col player).2 = s) := by
  obtain ⟨h1, h2, h3, h4, h5⟩ := makeMove_char s row col player
  refine ⟨h1, h2, h3, h4, h5, ?_⟩
  intro hover
  have hfail : (makeMove s row col player).1 = false := by
    by_contra hcon
    rw [Bool.not_eq_false] at hcon
    obtain ⟨_, _, _, _, _, hact⟩ := h1.mp hcon
    rw [hover] at hact
    cases hact
  exact ⟨hfail, h3 hfail⟩

/-- Witness for C1 at a concrete input: on the fresh state, an in-range
move on the empty cell (0,0) is accepted. -/
theorem makeMove_validation_spec_witness :
    ((makeMove initialState 0 0 'X').1 = true ↔
      ∃ i j : Fin 3, (i.val : Int) = 0 ∧ (j.val : Int) = 0 ∧
        initialState.board i j = ' ' ∧ initialState.gameActive = true) ∧
    ((makeMove initialState 0 0 'X').1 = true →
      ∀ i j : Fin 3, (makeMove initialState 0 0 'X').2.board i j =
        if (i.val : Int) = 0 ∧ (j.val : Int) = 0 then 'X'
        else initialState.board i j) ∧
    ((makeMove initialState 0 0 'X').1 = false →
      (makeMove initialState 0 0 'X').2 = initialState) ∧
    (makeMove initialState 0 0 'X').2.currentPlayer = initialState.currentPlayer ∧
    (makeMove initialState 0 0 'X').2.gameActive = initialState.gameActive ∧
    (initialState.gameActive = false →
      (makeMove initialState 0 0 'X').1 = false ∧
      (makeMove initialState 0 0 'X').2 = initialState) :=
  makeMove_validation_spec initialState 0 0 'X'

/-- Claim C2: `checkWinner(player)` is true iff one of the 8 winning lines
(3 rows, 3 columns, 2 diagonals) is fully occupied by `player`. -/
theorem checkWinner_iff_winningLines (s : GameState) (p : Char) :
    checkWinner s p = true ↔
      ∃ l ∈ winningLines, ∀ c ∈ l, s.board c.1 c.2 = p := by
  rw [checkWinner_eq_evalIsWinner]
  exact evalIsWinner_iff s.board p

/-- Witness for C2 at a concrete input: on the all-empty fresh state no
winning line is occupied by `'X'`, and `checkWinner` is false. -/
theorem checkWinner_iff_winningLines_witness :
    (checkWinner initialState 'X' = true ↔
      ∃ l ∈ winningLines, ∀ c ∈ l, initialState.board c.1 c.2 = 'X') ∧
    checkWinner initialState 'X' = false :=
  ⟨checkWinner_iff_winningLines initialState 'X', by decide⟩

/-- Claim C3: `findBestMove` returns `(-1, -1)` iff the board has no Empty
cell; otherwise it returns the first cell, in row-major scan order, among
the Empty cells whose score `minimax(board + O at cell, X to move)` is
maximal: every earlier Empty cell scores strictly less (strict `>`
comparison keeps the earlier of equal-scoring cells) and every later Empty
cell scores no more. -/
theorem findBestMove_spec (s : GameState) :
    (findBestMove s = (-1, -1) ↔ emptyCellsList s.board = []) ∧
    (emptyCellsList s.board ≠ [] →
      ∃ pre c suf, emptyCellsList s.board = pre ++ c :: suf ∧
        findBestMove s = ((c.1.val : Int), (c.2.val : Int)) ∧
        (∀ x ∈ pre, minimax (place s.board x.1 x.2 'O') 'X' <
          minimax (place s.board c.1 c.2 'O') 'X') ∧
        (∀ x ∈ suf, minimax (place s.board x.1 x.2 'O') 'X' ≤
          minimax (place s.board c.1 c.2 'O') 'X')) := by
  have hchar := findBestMove_char s
  refine ⟨⟨?_, hchar.1⟩, hchar.2⟩
  intro hm
  by_contra hne
  obtain ⟨pre, c, suf, _, hres, _, _⟩ := hchar.2 hne
  rw [hres] at hm
  have h1 : ((c.1.val : Nat) : Int) = -1 := congrArg Prod.fst hm
  omega

/-- Witness for C3 at a concrete input: the fresh empty state. -/
theorem findBestMove_spec_witness :
    (findBestMove initialState = (-1, -1) ↔
      emptyCellsList initialState.board = []) ∧
    (emptyCellsList initialState.board ≠ [] →
      ∃ pre c suf, emptyCellsList initialState.board = pre ++ c :: suf ∧
        findBestMove initialState = ((c.1.val : Int), (c.2.val : Int)) ∧
        (∀ x ∈ pre, minimax (place initialState.board x.1 x.2 'O') 'X' <
          minimax (place initialState.board c.1 c.2 'O') 'X') ∧
        (∀ x ∈ suf, minimax (place initialState.board x.1 x.2 'O') 'X' ≤
          minimax (place initialState.board c.1 c.2 'O') 'X')) :=
  findBestMove_spec initialState

/-- Counterexample to C4: on the board whose top row is an `'X'` line (a
terminal board), `minimax` returns `-10`, not the `+10` the claim assigns
to an X-line win — the code scores `+10` for `'O'` (the maximizer) and
`-10` for `'X'`. -/
theorem minimax_sign_counterexample :
    evalIsWinner boardXrow 'X' = true ∧ evalIsWinner boardXrow 'O' = false ∧
    minimax boardXrow 'O' = -10 :=
  ⟨by decide, by decide, minimax_leaf_X (by decide) (by decide) 'O'⟩

/-- Amended C4: on terminal boards `minimax` returns the leaf score with
the code's sign convention: `+10` when `'O'` has a completed line (checked
first), `-10` when `'X'` has a completed line and `'O'` has none, and `0`
for a full board with no completed line. -/
theorem minimax_terminal_eval (b : Board) (p : Char) :
    (evalIsWinner b 'O' = true → minimax b p = 10) ∧
    (evalIsWinner b 'O' = false → evalIsWinner b 'X' = true →
      minimax b p = -10) ∧
    (evalIsWinner b 'O' = false → evalIsWinner b 'X' = false →
      evalIsFull b = true → minimax b p = 0) :=
  ⟨fun h => minimax_leaf_O h p, fun hO hX => minimax_leaf_X hO hX p,
   fun hO hX hF => minimax_leaf_full hO hX hF p⟩

/-- Witness for the amended C4 on three concrete terminal boards. -/
theorem minimax_terminal_eval_witness :
    minimax boardOrow 'X' = 10 ∧ minimax boardXrow 'X' = -10 ∧
    minimax boardDraw 'X' = 0 :=
  ⟨(minimax_terminal_eval boardOrow 'X').1 (by decide),
   (minimax_terminal_eval boardXrow 'X').2.1 (by decide) (by decide),
   (minimax_terminal_eval boardDraw 'X').2.2 (by decide) (by decide) (by decide)⟩

/-- Claim C5: on every state reachable through the controller's turn
discipline, `checkWinner 'X'` and `checkWinner 'O'` are never
simultaneously true. -/
theorem no_simultaneous_winners (s : GameState) (h : Reachable s) :
    ¬(checkWinner s 'X' = true ∧ checkWinner s 'O' = true) := by
  rw [checkWinner_eq_evalIsWinner, checkWinner_eq_evalIsWinner]
  exact (reachable_inv s h).2.2

/-- Witness for C5 at a concrete reachable state: the initial state. -/
theorem no_simultaneous_winners_witness :
    ¬(checkWinner initialState 'X' = true ∧
      checkWinner initialState 'O' = true) :=
  no_simultaneous_winners initialState Reachable.init

/-- Counterexample to C6: on the board `X X . / O O . / . . .` with `'O'`
to move, `findBestMove` does not return `(1, 2)`. -/
theorem findBestMove_test_counterexample :
    findBestMove state6 ≠ ((1 : Int), (2 : Int)) := by
  rw [findBestMove_eq_F]
  decide

/-- Amended C6: on the board `X X . / O O . / . . .` with `'O'` to move,
`findBestMove` returns `(0, 2)`: placing `'O'` at `(0, 2)` also forces an
`'O'` win (it creates the double threat `(1, 2)` / anti-diagonal), so both
`(0, 2)` and `(1, 2)` score `+10`, and the row-major scan with the strict
`>` comparison keeps the earlier cell `(0, 2)` rather than the immediate
line completion at `(1, 2)`. -/
theorem findBestMove_test_amended :
    findBestMove state6 = ((0 : Int), (2 : Int)) ∧
    minimax (place state6.board 0 2 'O') 'X' = 10 ∧
    minimax (place state6.board 1 2 'O') 'X' = 10 := by
  refine ⟨?_, ?_, ?_⟩
  · rw [findBestMove_eq_F]
    decide
  · rw [← minimaxF_eq_minimax 9 _ (countEmpty_le_nine _) 'X']
    decide
  · rw [← minimaxF_eq_minimax 9 _ (countEmpty_le_nine _) 'X']
    decide

/-- Claim C7: in every play that starts from the empty board with `'O'`
moving first, where `'O'` always plays the cell returned by `findBestMove`
and `'X'` replies with arbitrary legal moves, no reached board ever has a
completed `'X'` line — `'O'` playing first never loses. -/
theorem oPlay_never_loses (b : Board) (t : Bool) (h : OPlay b t) :
    evalIsWinner b 'X' = false :=
  (oplay_inv b t h).1

/-- Witness for C7 at a concrete play: the empty starting position. -/
theorem oPlay_never_loses_witness : evalIsWinner emptyBoard 'X' = false :=
  oPlay_never_loses emptyBoard true OPlay.start

/-- Claim C8: the search performs no persistent mutation: the
board-threading rendition of `minimax` hands back exactly the board it was
given (every hypothetical mark is retracted), and `findBestMove` leaves
the `GameBoard` state untouched — the threaded copy ends equal to the
member board and the returned move agrees with the pure function. -/
theorem search_no_persistent_mutation (s : GameState) (fuel : Nat)
    (b : Board) (p : Char) :
    (minimaxSt fuel b p).2 = b ∧
    (findBestMoveSt s).2 = s.board ∧
    (findBestMoveSt s).1 = findBestMove s :=
  ⟨minimaxSt_snd fuel b p, by rw [findBestMoveSt_eq], by rw [findBestMoveSt_eq]⟩

/-- Claim C9: `minimax` terminates on every input: each recursive call is
on a board with strictly fewer Empty cells, the number of Empty cells is
at most 9, and the fuel-indexed rendition with fuel 9 (recursion depth 9)
already computes the full well-founded recursion. -/
theorem minimax_terminating (b : Board) (p : Char) :
    countEmpty b ≤ 9 ∧
    (∀ c ∈ emptyCellsList b,
      countEmpty (place b c.1 c.2 'O') < countEmpty b ∧
      countEmpty (place b c.1 c.2 'X') < countEmpty b) ∧
    minimaxF 9 b p = minimax b p :=
  ⟨countEmpty_le_nine b,
   fun c hc =>
     ⟨countEmpty_place_lt (mem_emptyCellsList.mp hc) (by decide),
      countEmpty_place_lt (mem_emptyCellsList.mp hc) (by decide)⟩,
   minimaxF_eq_minimax 9 b (countEmpty_le_nine b) p⟩

/-- Witness for C9 at a concrete input: the empty board and its first
scanned cell. -/
theorem minimax_terminating_witness :
    countEmpty emptyBoard ≤ 9 ∧
    countEmpty (place emptyBoard 0 0 'O') < countEmpty emptyBoard ∧
    minimaxF 9 emptyBoard 'O' = minimax emptyBoard 'O' :=
  ⟨(minimax_terminating emptyBoard 'O').1,
   ((minimax_terminating emptyBoard 'O').2.1 (0, 0) (by decide)).1,
   (minimax_terminating emptyBoard 'O').2.2⟩

/-- Claim C10: `makeMove` does not validate its `player` argument: any
char — also one different from the current player, or outside
`{' ', 'X', 'O'}` — is written into an in-range Empty cell of an active
game, so the board can come to hold arbitrary marks and turn alternation
is not enforced by the board itself. -/
theorem makeMove_accepts_any_player (s : GameState) (i j : Fin 3) (c : Char)
    (hcell : s.board i j = ' ') (hact : s.gameActive = true) :
    (makeMove s (i.val : Int) (j.val : Int) c).1 = true ∧
    (makeMove s (i.val : Int) (j.val : Int) c).2.board i j = c := by
  have hchar := makeMove_char s (i.val : Int) (j.val : Int) c
  have hok : (makeMove s (i.val : Int) (j.val : Int) c).1 = true :=
    hchar.1.mpr ⟨i, j, rfl, rfl, hcell, hact⟩
  refine ⟨hok, ?_⟩
  rw [hchar.2.1 hok i j, if_pos ⟨rfl, rfl⟩]

/-- Witness for C10 at a concrete input: the char `'Q'` — neither mark nor
the current player `'X'` — is accepted and stored on the fresh state. -/
theorem makeMove_accepts_any_player_witness :
    initialState.board 0 0 = ' ' ∧ initialState.gameActive = true ∧
    (makeMove initialState 0 0 'Q').1 = true ∧
    (makeMove initialState 0 0 'Q').2.board 0 0 = 'Q' := by
  have h := makeMove_accepts_any_player initialState 0 0 'Q' (by rfl) rfl
  exact ⟨rfl, rfl, h.1, h.2⟩
